import Mathlib

/-!
Verification of the Braille transliteration engine (`BrailleConverter`).

The definitions below are a shallow embedding of the JavaScript class
`BrailleConverter` (file `src/unnamed/part_000`).  Strings are modelled as
`List Char`; the index-based scanning loop of `textToBraille` is modelled by
passing the not-yet-consumed suffix of the text together with the previously
scanned character (the loop only ever looks one character back, in
`findWordContraction`).  JavaScript regular-expression character classes are
modelled by explicit code-point predicates.
-/

/-- Code points matched by the JavaScript regular expression class `\s`
(generic whitespace), used by `textToBraille` (line 89) and `String.trim`. -/
def isWhitespaceJS (c : Char) : Bool :=
  c.toNat = 32 || (9 ≤ c.toNat && c.toNat ≤ 13) || c.toNat = 0xa0 || c.toNat = 0x1680 ||
    (0x2000 ≤ c.toNat && c.toNat ≤ 0x200a) || c.toNat = 0x2028 || c.toNat = 0x2029 ||
    c.toNat = 0x202f || c.toNat = 0x205f || c.toNat = 0x3000 || c.toNat = 0xfeff

/-- Code points matched by the JavaScript class `\d` (line 105). -/
def isDigitJS (c : Char) : Bool :=
  48 ≤ c.toNat && c.toNat ≤ 57

/-- Code points matched by `/[a-zA-Z]/` (lines 125, 181, 195). -/
def isAsciiLetter (c : Char) : Bool :=
  (65 ≤ c.toNat && c.toNat ≤ 90) || (97 ≤ c.toNat && c.toNat ≤ 122)

/-- Code points matched by `/[A-Z]/` (line 127). -/
def isUpperAscii (c : Char) : Bool :=
  65 ≤ c.toNat && c.toNat ≤ 90

/-- `String.prototype.toLowerCase`, restricted to its effect on the ASCII
letters (the only characters the converter's tables contain). -/
def toLowerJS (c : Char) : Char :=
  if 65 ≤ c.toNat && c.toNat ≤ 90 then Char.ofNat (c.toNat + 32) else c

/-- `String.prototype.toUpperCase`, restricted to its effect on the ASCII
letters (used by `convertAcademicNotes` on title lines, line 259). -/
def toUpperJS (c : Char) : Char :=
  if 97 ≤ c.toNat && c.toNat ≤ 122 then Char.ofNat (c.toNat - 32) else c

/-- `this.ALPHABET_MAP` (lines 10-16), as an association list in the object's
insertion order. -/
def alphabetList : List (Char × Char) :=
  [('a', '⠁'), ('b', '⠃'), ('c', '⠉'), ('d', '⠙'), ('e', '⠑'), ('f', '⠋'),
   ('g', '⠛'), ('h', '⠓'), ('i', '⠊'), ('j', '⠚'), ('k', '⠅'), ('l', '⠇'),
   ('m', '⠍'), ('n', '⠝'), ('o', '⠕'), ('p', '⠏'), ('q', '⠟'), ('r', '⠗'),
   ('s', '⠎'), ('t', '⠞'), ('u', '⠥'), ('v', '⠧'), ('w', '⠺'), ('x', '⠭'),
   ('y', '⠽'), ('z', '⠵')]

/-- `this.ALPHABET_MAP[c]` (`undefined` becomes `none`). -/
def alphabetMap (c : Char) : Option Char :=
  alphabetList.lookup c

/-- `this.NUMBER_MAP` (lines 19-22). -/
def numberList : List (Char × Char) :=
  [('0', '⠚'), ('1', '⠁'), ('2', '⠃'), ('3', '⠉'), ('4', '⠙'), ('5', '⠑'),
   ('6', '⠋'), ('7', '⠛'), ('8', '⠓'), ('9', '⠊')]

/-- `this.NUMBER_MAP[c]`. -/
def numberMap (c : Char) : Option Char :=
  numberList.lookup c

/-- `this.CONTRACTIONS` (lines 25-36), keys in the object literal's insertion
order.  The literal lists the key `have` twice with the same value `⠓`
(lines 28 and 33); a JavaScript object keeps one property at the first
position, so it appears here once. -/
def wordContractions : List (List Char × Char) :=
  [("and".data, '⠯'), ("for".data, '⠿'), ("of".data, '⠷'), ("the".data, '⠮'),
   ("with".data, '⠾'), ("you".data, '⠽'), ("as".data, '⠵'), ("but".data, '⠃'),
   ("can".data, '⠉'), ("do".data, '⠙'), ("every".data, '⠑'), ("from".data, '⠋'),
   ("go".data, '⠛'), ("have".data, '⠓'), ("just".data, '⠚'), ("knowledge".data, '⠅'),
   ("like".data, '⠇'), ("more".data, '⠍'), ("not".data, '⠝'), ("people".data, '⠏'),
   ("quite".data, '⠟'), ("rather".data, '⠗'), ("so".data, '⠎'), ("that".data, '⠞'),
   ("us".data, '⠥'), ("very".data, '⠧'), ("will".data, '⠺'), ("it".data, '⠭'),
   ("his".data, '⠓'), ("was".data, '⠺'), ("were".data, '⠺'), ("are".data, '⠜'),
   ("be".data, '⠆'), ("been".data, '⠆'), ("had".data, '⠓'), ("here".data, '⠓'),
   ("know".data, '⠅'), ("lord".data, '⠇'), ("may".data, '⠍'), ("name".data, '⠝'),
   ("one".data, '⠕'), ("part".data, '⠏'), ("question".data, '⠟'), ("right".data, '⠗'),
   ("some".data, '⠎'), ("time".data, '⠞'), ("under".data, '⠥'), ("work".data, '⠺'),
   ("young".data, '⠽')]

/-- `this.LETTER_CONTRACTIONS` (lines 62-65). -/
def letterContractions : List (List Char × Char) :=
  [("ch".data, '⠡'), ("gh".data, '⠣'), ("sh".data, '⠩'), ("th".data, '⠹'),
   ("wh".data, '⠱'), ("ed".data, '⠫'), ("er".data, '⠻'), ("ou".data, '⠳'),
   ("ow".data, '⠪'), ("st".data, '⠌'), ("ar".data, '⠜'), ("ing".data, '⠬')]

/-- `this.PUNCTUATION_MAP` (lines 39-47).  Keys that the gate's scanner would
misread as Lean tokens are written by code point: 39 is the apostrophe, 92
the backslash, 96 the backtick, 123 and 125 the curly braces. -/
def punctList : List (Char × List Char) :=
  [('.', ['⠲']), (',', ['⠂']), (';', ['⠆']), (':', ['⠒']), ('!', ['⠖']),
   ('?', ['⠦']), ('"', ['⠦']), (Char.ofNat 39, ['⠄']), ('(', ['⠐', '⠣']),
   (')', ['⠐', '⠜']), ('[', ['⠨', '⠣']), (']', ['⠨', '⠜']),
   (Char.ofNat 123, ['⠸', '⠣']), (Char.ofNat 125, ['⠸', '⠜']), ('-', ['⠤']),
   ('–', ['⠠', '⠤']), ('—', ['⠐', '⠠', '⠤']), ('/', ['⠸', '⠌']),
   (Char.ofNat 92, ['⠸', '⠡']), ('*', ['⠐', '⠔']), ('&', ['⠈', '⠯']),
   ('@', ['⠈', '⠁']), ('#', ['⠼']), ('$', ['⠈', '⠎']), ('%', ['⠨', '⠴']),
   ('^', ['⠘', '⠔']), ('~', ['⠘', '⠱']), (Char.ofNat 96, ['⠘', '⠄']),
   ('|', ['⠸', '⠳']), ('<', ['⠈', '⠣']), ('>', ['⠈', '⠜']), ('=', ['⠐', '⠶']),
   ('+', ['⠐', '⠖']), ('_', ['⠸', '⠤'])]

/-- `this.PUNCTUATION_MAP[c]`. -/
def punctuationMap (c : Char) : Option (List Char) :=
  punctList.lookup c

/-- Stable insertion of a key/value pair into a list sorted by weakly
decreasing key length: the new element goes in front of the first element
whose key is not longer. -/
def insertByLen (x : List Char × Char) : List (List Char × Char) → List (List Char × Char)
  | [] => [x]
  | y :: ys => if y.1.length ≤ x.1.length then x :: y :: ys else y :: insertByLen x ys

/-- Stable sort by weakly decreasing key length, modelling
`Object.keys(table).sort((a, b) => b.length - a.length)` (lines 186-187 and
216-217; `Array.prototype.sort` is stable). -/
def sortByLenDesc (l : List (List Char × Char)) : List (List Char × Char) :=
  l.foldr insertByLen []

/-- The word-contraction keys in the order the matcher tries them. -/
def sortedWordContractions : List (List Char × Char) :=
  sortByLenDesc wordContractions

/-- The letter-contraction keys in the order the matcher tries them. -/
def sortedLetterContractions : List (List Char × Char) :=
  sortByLenDesc letterContractions

/-- Whether position `j` of `l` holds an ASCII letter; `false` past the end.
Models `/[a-zA-Z]/.test(text[j])` (text[j] is `undefined` past the end, and
the test is then false). -/
def isLetterAt (l : List Char) (j : Nat) : Bool :=
  match l.get? j with
  | some c => isAsciiLetter c
  | none => false

/-- The candidate loop of `findWordContraction` (lines 189-203), acting on the
suffix `rest` of the text that starts at the scan position: for each key in
order, if it fits (`endPos <= text.length`), the case-folded slice equals the
key, and the trailing boundary holds (end of text or a non-letter follows),
return the replacement and the key's length. -/
def findWordAux : List (List Char × Char) → List Char → Option (Char × Nat)
  | [], _ => none
  | (word, br) :: ks, rest =>
    if word.length ≤ rest.length then
      if (rest.take word.length).map toLowerJS = word then
        if word.length = rest.length || !(isLetterAt rest word.length) then
          some (br, word.length)
        else findWordAux ks rest
      else findWordAux ks rest
    else findWordAux ks rest

/-- `findWordContraction(text, pos)` (lines 179-206).  `prev` is the character
just before the scan position (`none` at the start of the text): the matcher
fails outright when it is an ASCII letter (lines 181-183). -/
def findWordContraction (prev : Option Char) (rest : List Char) : Option (Char × Nat) :=
  match prev with
  | some p => if isAsciiLetter p then none else findWordAux sortedWordContractions rest
  | none => findWordAux sortedWordContractions rest

/-- The candidate loop of `findLetterContraction` (lines 219-230): like the
word matcher but with no boundary conditions at all. -/
def findLetterAux : List (List Char × Char) → List Char → Option (Char × Nat)
  | [], _ => none
  | (letters, br) :: ks, rest =>
    if letters.length ≤ rest.length then
      if (rest.take letters.length).map toLowerJS = letters then
        some (br, letters.length)
      else findLetterAux ks rest
    else findLetterAux ks rest

/-- `findLetterContraction(text, pos)` (lines 214-233). -/
def findLetterContraction (rest : List Char) : Option (Char × Nat) :=
  findLetterAux sortedLetterContractions rest

/-- One iteration of the `while` loop of `textToBraille` (lines 84-168), at a
position holding character `c` followed by `rest`, with `prev` the character
before the position.  Returns the characters appended to `result`, the new
`prev`, the unconsumed suffix, and the new `inNumber` flag.  Branch order is
the source's: generic whitespace (which swallows a literal newline, so the
newline arm is unreachable), newline, digit, punctuation, letter (capital
indicator, then in Grade 2 the word matcher, the letter matcher, then the
single-letter table), and passthrough. -/
def scanStep (prev : Option Char) (c : Char) (rest : List Char)
    (useGrade2 inNumber : Bool) : List Char × Option Char × List Char × Bool :=
  if isWhitespaceJS c then ([' '], some c, rest, false)
  else if c = '\n' then (['\n'], some c, rest, false)
  else if isDigitJS c then
    ((if inNumber then [] else ['⠼']) ++ [(numberMap c).getD c], some c, rest, true)
  else
    match punctuationMap c with
    | some ps => (ps, some c, rest, false)
    | none =>
      if isAsciiLetter c then
        if useGrade2 then
          match findWordContraction prev (c :: rest) with
          | some (br, len) =>
            ((if isUpperAscii c then ['⠠'] else []) ++ [br],
              (c :: rest).get? (len - 1), (c :: rest).drop len, false)
          | none =>
            match findLetterContraction (c :: rest) with
            | some (br, len) =>
              ((if isUpperAscii c then ['⠠'] else []) ++ [br],
                (c :: rest).get? (len - 1), (c :: rest).drop len, false)
            | none =>
              ((if isUpperAscii c then ['⠠'] else []) ++ [(alphabetMap (toLowerJS c)).getD c],
                some c, rest, false)
        else
          ((if isUpperAscii c then ['⠠'] else []) ++ [(alphabetMap (toLowerJS c)).getD c],
            some c, rest, false)
      else ([c], some c, rest, false)

/-- The scanning loop of `textToBraille`, with an explicit iteration budget;
each iteration consumes at least one character, so a budget of the remaining
length computes the loop's full result (proved in `fuelGo_stable`). -/
def fuelGo : Nat → Option Char → List Char → Bool → Bool → List Char
  | 0, _, _, _, _ => []
  | _ + 1, _, [], _, _ => []
  | f + 1, prev, c :: rest, useGrade2, inNumber =>
    (scanStep prev c rest useGrade2 inNumber).1 ++
      fuelGo f (scanStep prev c rest useGrade2 inNumber).2.1
        (scanStep prev c rest useGrade2 inNumber).2.2.1 useGrade2
        (scanStep prev c rest useGrade2 inNumber).2.2.2

/-- The scanning loop of `textToBraille` from an arbitrary intermediate
state: `prev` is the character before the current position, `rest` the
unconsumed suffix, `inNumber` the number-mode flag. -/
def textToBrailleAux (prev : Option Char) (rest : List Char)
    (useGrade2 inNumber : Bool) : List Char :=
  fuelGo rest.length prev rest useGrade2 inNumber

/-- `textToBraille(text, useGrade2 = true)` (lines 74-171).  A non-string
argument is outside the model; the empty string returns the empty string
through the same loop. -/
def textToBraille (text : List Char) (useGrade2 : Bool := true) : List Char :=
  textToBrailleAux none text useGrade2 false

/-- Whether a code point lies in the Unicode Braille Patterns block. -/
def isBrailleChar (c : Char) : Bool :=
  0x2800 ≤ c.toNat && c.toNat ≤ 0x28FF

/-- `isValidBraille(text)` (lines 310-318): a falsy (empty) string fails, and
otherwise the anchored regular expression `^[⠀-⣿\s\n]*$` must match
every character. -/
def isValidBraille (text : List Char) : Bool :=
  !text.isEmpty && text.all (fun c => isBrailleChar c || isWhitespaceJS c || c = '\n')

/-- The record returned by `getBrailleCharInfo` (lines 333-338). -/
structure BrailleCharInfo where
  character : Char
  unicode : List Char
  dots : Nat
  binary : List Char
deriving DecidableEq

/-- An upper-case hexadecimal digit. -/
def hexDigitChar (n : Nat) : Char :=
  if n < 10 then Char.ofNat (48 + n) else Char.ofNat (55 + n)

/-- `n.toString(16).toUpperCase().padStart(4, '0')` for `n < 0x10000`
(line 335; every code point the function reaches is in `[0x2800, 0x28FF]`,
where the hexadecimal expansion has exactly four digits). -/
def toHex4 (n : Nat) : List Char :=
  [hexDigitChar (n / 4096 % 16), hexDigitChar (n / 256 % 16),
   hexDigitChar (n / 16 % 16), hexDigitChar (n % 16)]

/-- A binary digit as a character. -/
def bitChar (n : Nat) : Char :=
  if n = 0 then '0' else '1'

/-- `n.toString(2).padStart(8, '0')` for `n < 256` (line 337). -/
def toBin8 (n : Nat) : List Char :=
  [bitChar (n / 128 % 2), bitChar (n / 64 % 2), bitChar (n / 32 % 2),
   bitChar (n / 16 % 2), bitChar (n / 8 % 2), bitChar (n / 4 % 2),
   bitChar (n / 2 % 2), bitChar (n % 2)]

/-- The numeric value of a binary digit string (most significant first);
used to state that `toBin8 n` really denotes `n`. -/
def binVal (l : List Char) : Nat :=
  l.foldl (fun a c => 2 * a + (if c = '1' then 1 else 0)) 0

/-- `getBrailleCharInfo(char)` (lines 325-342): `null` unless the argument is
a single character whose code point lies in `[0x2800, 0x28FF]`. -/
def getBrailleCharInfo (s : List Char) : Option BrailleCharInfo :=
  match s with
  | [c] =>
    if 0x2800 ≤ c.toNat && c.toNat ≤ 0x28FF then
      some { character := c,
             unicode := 'U' :: '+' :: toHex4 c.toNat,
             dots := c.toNat - 0x2800,
             binary := toBin8 (c.toNat - 0x2800) }
    else none
  | _ => none

/-- `notes.split('\n')` on character lists, matching the JavaScript
`String.prototype.split` with a single-character separator. -/
def splitNL : List Char → List (List Char)
  | [] => [[]]
  | c :: rest =>
    if c = '\n' then [] :: splitNL rest
    else
      match splitNL rest with
      | [] => [[c]]
      | h :: t => (c :: h) :: t

/-- `String.prototype.trim` (whitespace and line terminators stripped from
both ends; the set is the same as the `\s` class). -/
def trimJS (l : List Char) : List Char :=
  ((l.dropWhile isWhitespaceJS).reverse.dropWhile isWhitespaceJS).reverse

/-- Whether `m` is a leading segment of `line` (`String.prototype.startsWith`). -/
def hasLead : List Char → List Char → Bool
  | [], _ => true
  | _ :: _, [] => false
  | a :: as, b :: bs => a = b && hasLead as bs

/-- Code points the JavaScript regular-expression dot `.` does not match
(line terminators). -/
def isLineTerm (c : Char) : Bool :=
  c = '\n' || c = '\r' || c.toNat = 0x2028 || c.toNat = 0x2029

/-- The lazy part of `/\*\*(.*?)\*\*/`: split `l` at the earliest closing
`**`, returning the (line-terminator-free) text before it and the text after
it, or `none` when no closing `**` occurs on the line. -/
def findBoldClose : List Char → Option (List Char × List Char)
  | '*' :: '*' :: rest => some ([], rest)
  | c :: rest =>
    if isLineTerm c then none
    else (findBoldClose rest).map (fun p => (c :: p.1, p.2))
  | [] => none

/-- `line.replace(/\*\*(.*?)\*\*/g, (m, text) => BOLD + textToBraille(text) + BOLD)`
(lines 289-291), with an explicit scan budget (each step consumes at least one
character). -/
def replaceBoldFuel : Nat → List Char → List Char
  | 0, l => l
  | _ + 1, [] => []
  | f + 1, '*' :: '*' :: rest =>
    match findBoldClose rest with
    | some (inner, after) => '⠸' :: (textToBraille inner true ++ '⠸' :: replaceBoldFuel f after)
    | none => '*' :: replaceBoldFuel f ('*' :: rest)
  | f + 1, c :: rest => c :: replaceBoldFuel f rest

/-- The bold-span substitution pass over one line. -/
def replaceBold (l : List Char) : List Char :=
  replaceBoldFuel l.length l

/-- The lazy part of `/\*(.*?)\*/`. -/
def findItalClose : List Char → Option (List Char × List Char)
  | '*' :: rest => some ([], rest)
  | c :: rest =>
    if isLineTerm c then none
    else (findItalClose rest).map (fun p => (c :: p.1, p.2))
  | [] => none

/-- `line.replace(/\*(.*?)\*/g, (m, text) => ITALIC + textToBraille(text) + ITALIC)`
(lines 294-296). -/
def replaceItalFuel : Nat → List Char → List Char
  | 0, l => l
  | _ + 1, [] => []
  | f + 1, '*' :: rest =>
    match findItalClose rest with
    | some (inner, after) => '⠨' :: (textToBraille inner true ++ '⠨' :: replaceItalFuel f after)
    | none => '*' :: replaceItalFuel f rest
  | f + 1, c :: rest => c :: replaceItalFuel f rest

/-- The italic-span substitution pass over one line. -/
def replaceItal (l : List Char) : List Char :=
  replaceItalFuel l.length l

/-- `/^\d+\.\s/.test(line)` (line 278). -/
def numberedTest (line : List Char) : Bool :=
  match line.takeWhile isDigitJS, line.drop (line.takeWhile isDigitJS).length with
  | _ :: _, '.' :: w :: _ => isWhitespaceJS w
  | _, _ => false

/-- `line.match(/^(\d+)\.\s(.+)$/)` (line 279): the leading digit run, a dot,
one whitespace character, then a non-empty remainder free of line
terminators (which the dot cannot match and `$` cannot absorb). -/
def numberedMatch (line : List Char) : Option (List Char × List Char) :=
  match line.takeWhile isDigitJS, line.drop (line.takeWhile isDigitJS).length with
  | d :: ds, '.' :: w :: item =>
    if isWhitespaceJS w && !item.isEmpty && item.all (fun c => !isLineTerm c) then
      some (d :: ds, item)
    else none
  | _, _ => none

/-- The body of the per-line loop of `convertAcademicNotes` (lines 248-300):
the trimmed line is dispatched on its structural marker, and the returned
characters are what the iteration appends to `result`. -/
def convertLine (line0 : List Char) : List Char :=
  let line := trimJS line0
  if line.isEmpty then ['\n']
  else if hasLead ("# ".data) line then
    '⠠' :: (textToBraille ((line.drop 2).map toUpperJS) true ++ ['\n', '\n'])
  else if hasLead ("## ".data) line then
    '⠸' :: (textToBraille (line.drop 3) true ++ ['\n', '\n'])
  else if hasLead ("* ".data) line || hasLead ("- ".data) line then
    '⠸' :: '⠲' :: ' ' :: (textToBraille (line.drop 2) true ++ ['\n'])
  else if numberedTest line then
    match numberedMatch line with
    | some (num, item) =>
      '⠼' :: (textToBraille num true ++ '⠲' :: ' ' ::
        (textToBraille item true ++ ['\n']))
    | none => textToBraille (replaceItal (replaceBold line)) true ++ ['\n']
  else textToBraille (replaceItal (replaceBold line)) true ++ ['\n']

/-- `convertAcademicNotes` before its final `result.trim()` (lines 245-300). -/
def convertAcademicNotesRaw (notes : List Char) : List Char :=
  ((splitNL notes).map convertLine).foldr (fun a b => a ++ b) []

/-- `convertAcademicNotes(notes)` (lines 240-303). -/
def convertAcademicNotes (notes : List Char) : List Char :=
  trimJS (convertAcademicNotesRaw notes)

/-- Whether an optional previous character is an ASCII letter; the word
matcher depends on its `prev` argument only through this test. -/
def isLetterOpt : Option Char → Bool
  | some c => isAsciiLetter c
  | none => false

/-- Characters with a rule-table entry (single letter, digit or punctuation)
or in the generic-whitespace class. -/
def hasRuleEntry (c : Char) : Bool :=
  isAsciiLetter c || isDigitJS c || (punctuationMap c).isSome || isWhitespaceJS c

/-- Characters that may appear in the converter's output when no passthrough
fires: Braille-range code points, the literal space and the literal newline. -/
def allowedOutChar (c : Char) : Bool :=
  isBrailleChar c || c = ' ' || c = '\n'

/-- A word-contraction table entry is eligible at the start of `rest` when it
fits, its key equals the case-folded slice, and the trailing word boundary
holds.  `findWordContraction` returns exactly the first eligible entry in its
longest-first order. -/
def eligibleWordKey (rest : List Char) (kb : List Char × Char) : Prop :=
  kb.1.length ≤ rest.length ∧ (rest.take kb.1.length).map toLowerJS = kb.1 ∧
    (kb.1.length = rest.length ∨ isLetterAt rest kb.1.length = false)

/-! Section: Character-class facts -/

theorem not_ws_of_digit {c : Char} (h : isDigitJS c = true) : isWhitespaceJS c = false := by
  simp only [isDigitJS, Bool.and_eq_true, decide_eq_true_eq] at h
  simp only [isWhitespaceJS, Bool.or_eq_false_iff, Bool.and_eq_false_iff,
    decide_eq_false_iff_not]
  omega

theorem not_ws_of_letter {c : Char} (h : isAsciiLetter c = true) : isWhitespaceJS c = false := by
  simp only [isAsciiLetter, Bool.or_eq_true, Bool.and_eq_true, decide_eq_true_eq] at h
  simp only [isWhitespaceJS, Bool.or_eq_false_iff, Bool.and_eq_false_iff,
    decide_eq_false_iff_not]
  omega

theorem not_digit_of_letter {c : Char} (h : isAsciiLetter c = true) : isDigitJS c = false := by
  simp only [isAsciiLetter, Bool.or_eq_true, Bool.and_eq_true, decide_eq_true_eq] at h
  simp only [isDigitJS, Bool.and_eq_false_iff, decide_eq_false_iff_not]
  omega

theorem letter_of_upper {c : Char} (h : isUpperAscii c = true) : isAsciiLetter c = true := by
  simp only [isUpperAscii, Bool.and_eq_true, decide_eq_true_eq] at h
  simp only [isAsciiLetter, Bool.or_eq_true, Bool.and_eq_true, decide_eq_true_eq]
  omega

theorem ne_nl_of_not_ws {c : Char} (h : isWhitespaceJS c = false) : ¬(c = '\n') := by
  intro hc
  subst hc
  exact absurd h (by decide)

theorem toLowerJS_eq_self {c : Char} (h : isUpperAscii c = false) : toLowerJS c = c := by
  simp only [isUpperAscii] at h
  simp [toLowerJS, h]

theorem toLowerJS_toNat_of_upper {c : Char} (h : isUpperAscii c = true) :
    (toLowerJS c).toNat = c.toNat + 32 := by
  have hc : c = Char.ofNat c.toNat := (Char.ofNat_toNat c).symm
  simp only [isUpperAscii, Bool.and_eq_true, decide_eq_true_eq] at h
  obtain ⟨h1, h2⟩ := h
  interval_cases hn : c.toNat <;> simp_all <;> decide

theorem letter_toLower_range {c : Char} (h : isAsciiLetter c = true) :
    97 ≤ (toLowerJS c).toNat ∧ (toLowerJS c).toNat ≤ 122 := by
  by_cases hu : isUpperAscii c = true
  · rw [toLowerJS_toNat_of_upper hu]
    simp only [isUpperAscii, Bool.and_eq_true, decide_eq_true_eq] at hu
    omega
  · rw [toLowerJS_eq_self (by simpa using hu)]
    simp only [isAsciiLetter, Bool.or_eq_true, Bool.and_eq_true, decide_eq_true_eq] at h
    simp only [isUpperAscii, Bool.and_eq_true, decide_eq_true_eq] at hu
    omega

theorem isUpperAscii_toLowerJS (c : Char) : isUpperAscii (toLowerJS c) = false := by
  by_cases hu : isUpperAscii c = true
  · simp only [isUpperAscii, Bool.and_eq_false_iff, decide_eq_false_iff_not]
    rw [toLowerJS_toNat_of_upper hu]
    simp only [isUpperAscii, Bool.and_eq_true, decide_eq_true_eq] at hu
    omega
  · rw [toLowerJS_eq_self (by simpa using hu)]
    simpa using hu

theorem toLowerJS_idem (c : Char) : toLowerJS (toLowerJS c) = toLowerJS c := by
  by_cases hu : isUpperAscii c = true
  · apply toLowerJS_eq_self
    exact isUpperAscii_toLowerJS c
  · have h' : isUpperAscii c = false := by simpa using hu
    rw [toLowerJS_eq_self h', toLowerJS_eq_self h']

theorem isAsciiLetter_toLowerJS {c : Char} (h : isAsciiLetter c = true) :
    isAsciiLetter (toLowerJS c) = true := by
  have := letter_toLower_range h
  simp only [isAsciiLetter, Bool.or_eq_true, Bool.and_eq_true, decide_eq_true_eq]
  omega

/-! Section: Association-list facts -/

theorem lookup_mem_snd {β : Type} (ps : List (Char × β)) (c : Char) (v : β)
    (h : ps.lookup c = some v) : v ∈ ps.map Prod.snd := by
  induction ps with
  | nil => simp [List.lookup] at h
  | cons kb ks ih =>
    rw [List.lookup] at h
    split at h
    · simp at h; simp [h]
    · simp [ih h]

theorem lookup_none_of_no_key {β : Type} (ps : List (Char × β)) (c : Char)
    (h : ∀ kb ∈ ps, kb.1 ≠ c) : ps.lookup c = none := by
  induction ps with
  | nil => rfl
  | cons kb ks ih =>
    rw [List.lookup]
    split
    · rename_i hbeq
      have hce : c = kb.1 := by simpa using hbeq
      exact absurd hce.symm (h kb (by simp))
    · exact ih (fun x hx => h x (by simp [hx]))

theorem punct_none_of_letter {c : Char} (h : isAsciiLetter c = true) :
    punctuationMap c = none := by
  apply lookup_none_of_no_key
  intro kb hkb hc
  subst hc
  have hall : punctList.all (fun kb => !isAsciiLetter kb.1) = true := by decide
  rw [List.all_eq_true] at hall
  have := hall kb hkb
  simp only [Bool.not_eq_true'] at this
  rw [this] at h
  cases h

theorem alphabetMap_isSome_of_lower {c : Char} (h1 : 97 ≤ c.toNat) (h2 : c.toNat ≤ 122) :
    (alphabetMap c).isSome = true := by
  have hc : c = Char.ofNat c.toNat := (Char.ofNat_toNat c).symm
  interval_cases hn : c.toNat <;> simp_all <;> decide

theorem numberMap_isSome_of_digit {c : Char} (h : isDigitJS c = true) :
    (numberMap c).isSome = true := by
  have hc : c = Char.ofNat c.toNat := (Char.ofNat_toNat c).symm
  simp only [isDigitJS, Bool.and_eq_true, decide_eq_true_eq] at h
  obtain ⟨h1, h2⟩ := h
  interval_cases hn : c.toNat <;> simp_all <;> decide

theorem lookup_mem_pair {β : Type} {ps : List (Char × β)} {c : Char} {v : β}
    (h : ps.lookup c = some v) : (c, v) ∈ ps := by
  induction ps with
  | nil => simp [List.lookup] at h
  | cons kb ks ih =>
    rw [List.lookup] at h
    split at h
    · rename_i hbeq
      have hce : c = kb.1 := by simpa using hbeq
      have hv : v = kb.2 := by simpa using h.symm
      subst hce
      rw [hv]
      simp
    · simp [ih h]

/-! Section: Sorting facts -/

theorem mem_insertByLen {x y : List Char × Char} {l : List (List Char × Char)} :
    y ∈ insertByLen x l ↔ y = x ∨ y ∈ l := by
  induction l with
  | nil => simp [insertByLen]
  | cons a as ih =>
    rw [insertByLen]
    split
    · simp only [List.mem_cons]
    · simp only [List.mem_cons, ih]
      tauto

theorem mem_sortByLenDesc {y : List Char × Char} {l : List (List Char × Char)} :
    y ∈ sortByLenDesc l ↔ y ∈ l := by
  unfold sortByLenDesc
  induction l with
  | nil => simp
  | cons a as ih =>
    simp only [List.foldr, mem_insertByLen, ih, List.mem_cons]

/-! Section: Contraction-matcher facts -/

theorem findWordAux_some {ks : List (List Char × Char)} {rest : List Char} {br : Char}
    {len : Nat} (h : findWordAux ks rest = some (br, len)) :
    (∃ kb ∈ ks, kb.1.length = len ∧ kb.2 = br ∧ (rest.take len).map toLowerJS = kb.1) ∧
      len ≤ rest.length ∧ (len = rest.length ∨ isLetterAt rest len = false) := by
  induction ks with
  | nil => simp [findWordAux] at h
  | cons kb ks ih =>
    obtain ⟨word, v⟩ := kb
    rw [findWordAux] at h
    split at h
    · split at h
      · split at h
        · rename_i hfit hslice hbound
          simp only [Option.some.injEq, Prod.mk.injEq] at h
          obtain ⟨hbr, hlen⟩ := h
          subst hbr
          subst hlen
          simp only [Bool.or_eq_true, decide_eq_true_eq, Bool.not_eq_true'] at hbound
          exact ⟨⟨(word, v), by simp, rfl, rfl, hslice⟩, hfit, hbound⟩
        · obtain ⟨⟨kb', hmem, h1, h2, h3⟩, h4, h5⟩ := ih h
          exact ⟨⟨kb', List.mem_cons_of_mem _ hmem, h1, h2, h3⟩, h4, h5⟩
      · obtain ⟨⟨kb', hmem, h1, h2, h3⟩, h4, h5⟩ := ih h
        exact ⟨⟨kb', List.mem_cons_of_mem _ hmem, h1, h2, h3⟩, h4, h5⟩
    · obtain ⟨⟨kb', hmem, h1, h2, h3⟩, h4, h5⟩ := ih h
      exact ⟨⟨kb', List.mem_cons_of_mem _ hmem, h1, h2, h3⟩, h4, h5⟩

theorem findLetterAux_some {ks : List (List Char × Char)} {rest : List Char} {br : Char}
    {len : Nat} (h : findLetterAux ks rest = some (br, len)) :
    (∃ kb ∈ ks, kb.1.length = len ∧ kb.2 = br ∧ (rest.take len).map toLowerJS = kb.1) ∧
      len ≤ rest.length := by
  induction ks with
  | nil => simp [findLetterAux] at h
  | cons kb ks ih =>
    obtain ⟨word, v⟩ := kb
    rw [findLetterAux] at h
    split at h
    · split at h
      · rename_i hfit hslice
        simp only [Option.some.injEq, Prod.mk.injEq] at h
        obtain ⟨hbr, hlen⟩ := h
        subst hbr
        subst hlen
        exact ⟨⟨(word, v), by simp, rfl, rfl, hslice⟩, hfit⟩
      · obtain ⟨⟨kb', hmem, h1, h2, h3⟩, h4⟩ := ih h
        exact ⟨⟨kb', List.mem_cons_of_mem _ hmem, h1, h2, h3⟩, h4⟩
    · obtain ⟨⟨kb', hmem, h1, h2, h3⟩, h4⟩ := ih h
      exact ⟨⟨kb', List.mem_cons_of_mem _ hmem, h1, h2, h3⟩, h4⟩

theorem sortedWord_facts :
    sortedWordContractions.all
      (fun kb => decide (2 ≤ kb.1.length) && isBrailleChar kb.2) = true := by decide

theorem sortedLetter_facts :
    sortedLetterContractions.all
      (fun kb => decide (2 ≤ kb.1.length) && isBrailleChar kb.2) = true := by decide

theorem findWordContraction_aux_of_some {prev : Option Char} {rest : List Char}
    {br : Char} {len : Nat} (h : findWordContraction prev rest = some (br, len)) :
    findWordAux sortedWordContractions rest = some (br, len) := by
  cases prev with
  | none => simpa only [findWordContraction] using h
  | some p =>
    simp only [findWordContraction] at h
    by_cases hp : isAsciiLetter p = true
    · rw [if_pos hp] at h
      cases h
    · rw [if_neg hp] at h
      exact h

theorem findWordContraction_some {prev : Option Char} {rest : List Char} {br : Char}
    {len : Nat} (h : findWordContraction prev rest = some (br, len)) :
    2 ≤ len ∧ len ≤ rest.length ∧ isBrailleChar br = true ∧
      (len = rest.length ∨ isLetterAt rest len = false) := by
  obtain ⟨⟨kb, hmem, hlen, hbr, _⟩, hle, hbound⟩ :=
    findWordAux_some (findWordContraction_aux_of_some h)
  have hall := sortedWord_facts
  rw [List.all_eq_true] at hall
  have hkb := hall kb hmem
  simp only [Bool.and_eq_true, decide_eq_true_eq] at hkb
  exact ⟨hlen ▸ hkb.1, hle, hbr ▸ hkb.2, hbound⟩

theorem findLetterContraction_some {rest : List Char} {br : Char} {len : Nat}
    (h : findLetterContraction rest = some (br, len)) :
    2 ≤ len ∧ len ≤ rest.length ∧ isBrailleChar br = true := by
  obtain ⟨⟨kb, hmem, hlen, hbr, _⟩, hle⟩ := findLetterAux_some h
  have hall := sortedLetter_facts
  rw [List.all_eq_true] at hall
  have hkb := hall kb hmem
  simp only [Bool.and_eq_true, decide_eq_true_eq] at hkb
  exact ⟨hlen ▸ hkb.1, hle, hbr ▸ hkb.2⟩

/-! Section: The loop body, branch by branch -/

theorem scanStep_ws {c : Char} (h : isWhitespaceJS c = true) (prev : Option Char)
    (rest : List Char) (g2 n : Bool) :
    scanStep prev c rest g2 n = ([' '], some c, rest, false) := by
  simp [scanStep, h]

theorem scanStep_digit {c : Char} (h : isDigitJS c = true) (prev : Option Char)
    (rest : List Char) (g2 n : Bool) :
    scanStep prev c rest g2 n =
      ((if n then [] else ['⠼']) ++ [(numberMap c).getD c], some c, rest, true) := by
  have hws := not_ws_of_digit h
  simp [scanStep, hws, ne_nl_of_not_ws hws, h]

theorem scanStep_punct {c : Char} {ps : List Char} (hws : isWhitespaceJS c = false)
    (hd : isDigitJS c = false) (hps : punctuationMap c = some ps) (prev : Option Char)
    (rest : List Char) (g2 n : Bool) :
    scanStep prev c rest g2 n = (ps, some c, rest, false) := by
  simp [scanStep, hws, ne_nl_of_not_ws hws, hd, hps]

theorem scanStep_word {prev : Option Char} {c : Char} {rest : List Char} {br : Char}
    {len : Nat} (hl : isAsciiLetter c = true)
    (hw : findWordContraction prev (c :: rest) = some (br, len)) (n : Bool) :
    scanStep prev c rest true n =
      ((if isUpperAscii c then ['⠠'] else []) ++ [br],
        (c :: rest).get? (len - 1), (c :: rest).drop len, false) := by
  have hws := not_ws_of_letter hl
  simp [scanStep, hws, ne_nl_of_not_ws hws, not_digit_of_letter hl,
    punct_none_of_letter hl, hl, hw]

theorem scanStep_lettergroup {prev : Option Char} {c : Char} {rest : List Char} {br : Char}
    {len : Nat} (hl : isAsciiLetter c = true)
    (hw : findWordContraction prev (c :: rest) = none)
    (hg : findLetterContraction (c :: rest) = some (br, len)) (n : Bool) :
    scanStep prev c rest true n =
      ((if isUpperAscii c then ['⠠'] else []) ++ [br],
        (c :: rest).get? (len - 1), (c :: rest).drop len, false) := by
  have hws := not_ws_of_letter hl
  simp [scanStep, hws, ne_nl_of_not_ws hws, not_digit_of_letter hl,
    punct_none_of_letter hl, hl, hw, hg]

theorem scanStep_single {prev : Option Char} {c : Char} {rest : List Char}
    (hl : isAsciiLetter c = true) (hw : findWordContraction prev (c :: rest) = none)
    (hg : findLetterContraction (c :: rest) = none) (n : Bool) :
    scanStep prev c rest true n =
      ((if isUpperAscii c then ['⠠'] else []) ++ [(alphabetMap (toLowerJS c)).getD c],
        some c, rest, false) := by
  have hws := not_ws_of_letter hl
  simp [scanStep, hws, ne_nl_of_not_ws hws, not_digit_of_letter hl,
    punct_none_of_letter hl, hl, hw, hg]

theorem scanStep_grade1 {c : Char} (hl : isAsciiLetter c = true) (prev : Option Char)
    (rest : List Char) (n : Bool) :
    scanStep prev c rest false n =
      ((if isUpperAscii c then ['⠠'] else []) ++ [(alphabetMap (toLowerJS c)).getD c],
        some c, rest, false) := by
  have hws := not_ws_of_letter hl
  simp [scanStep, hws, ne_nl_of_not_ws hws, not_digit_of_letter hl,
    punct_none_of_letter hl, hl]

theorem scanStep_other {c : Char} (hws : isWhitespaceJS c = false)
    (hd : isDigitJS c = false) (hps : punctuationMap c = none)
    (hl : isAsciiLetter c = false) (prev : Option Char) (rest : List Char) (g2 n : Bool) :
    scanStep prev c rest g2 n = ([c], some c, rest, false) := by
  simp [scanStep, hws, ne_nl_of_not_ws hws, hd, hps, hl]

theorem scanStep_consumes (prev : Option Char) (c : Char) (rest : List Char) (g2 n : Bool) :
    ((scanStep prev c rest g2 n).2.2.1).length ≤ rest.length := by
  unfold scanStep
  split
  · simp
  split
  · simp
  split
  · simp
  split
  · simp
  split
  · split
    · split
      · rename_i br len heq
        have h2 := (findWordContraction_some heq).1
        simp only [List.length_drop, List.length_cons]
        omega
      · split
        · rename_i br len heq
          have h2 := (findLetterContraction_some heq).1
          simp only [List.length_drop, List.length_cons]
          omega
        · simp
    · simp
  · simp

theorem fuelGo_stable (f : Nat) :
    ∀ (prev : Option Char) (rest : List Char) (g2 n : Bool), rest.length ≤ f →
      fuelGo f prev rest g2 n = textToBrailleAux prev rest g2 n := by
  induction f using Nat.strong_induction_on with
  | _ f ih =>
    intro prev rest g2 n hle
    match f, rest with
    | 0, [] => rfl
    | f + 1, [] => rfl
    | 0, c :: rest => simp at hle
    | f + 1, c :: rest =>
      show (scanStep prev c rest g2 n).1 ++
          fuelGo f (scanStep prev c rest g2 n).2.1 (scanStep prev c rest g2 n).2.2.1 g2
            (scanStep prev c rest g2 n).2.2.2 = _
      have hfit : (scanStep prev c rest g2 n).2.2.1.length ≤ rest.length :=
        scanStep_consumes prev c rest g2 n
      have hlen : rest.length ≤ f := by
        simp only [List.length_cons] at hle
        omega
      have hr : textToBrailleAux prev (c :: rest) g2 n =
          (scanStep prev c rest g2 n).1 ++
            fuelGo rest.length (scanStep prev c rest g2 n).2.1
              (scanStep prev c rest g2 n).2.2.1 g2 (scanStep prev c rest g2 n).2.2.2 := rfl
      rw [hr]
      congr 1
      rw [ih f (Nat.lt_succ_self f) _ _ _ _ (le_trans hfit hlen)]
      rw [ih rest.length (by omega) _ _ _ _ hfit]

theorem textToBrailleAux_nil (prev : Option Char) (g2 n : Bool) :
    textToBrailleAux prev [] g2 n = [] := rfl

theorem textToBrailleAux_cons (prev : Option Char) (c : Char) (rest : List Char)
    (g2 n : Bool) :
    textToBrailleAux prev (c :: rest) g2 n =
      (scanStep prev c rest g2 n).1 ++
        textToBrailleAux (scanStep prev c rest g2 n).2.1 (scanStep prev c rest g2 n).2.2.1
          g2 (scanStep prev c rest g2 n).2.2.2 := by
  have hr : textToBrailleAux prev (c :: rest) g2 n =
      (scanStep prev c rest g2 n).1 ++
        fuelGo rest.length (scanStep prev c rest g2 n).2.1
          (scanStep prev c rest g2 n).2.2.1 g2 (scanStep prev c rest g2 n).2.2.2 := rfl
  rw [hr, fuelGo_stable rest.length _ _ _ _ (scanStep_consumes prev c rest g2 n)]

theorem scanStep_emits {prev : Option Char} {c : Char} {rest : List Char} {g2 n : Bool} :
    (scanStep prev c rest g2 n).1 ≠ [] := by
  unfold scanStep
  split
  · simp
  split
  · simp
  split
  · split <;> simp
  split
  · rename_i ps heq
    have := lookup_mem_pair heq
    have hall : punctList.all (fun kb => !kb.2.isEmpty) = true := by decide
    rw [List.all_eq_true] at hall
    have hk := hall _ this
    simp only [Bool.not_eq_true', List.isEmpty_eq_false] at hk
    exact hk
  split
  · split
    · split
      · split <;> simp
      · split
        · split <;> simp
        · split <;> simp
    · split <;> simp
  · simp

/-! Section: Number-mode facts -/

theorem aux_digit_run (ds : List Char) :
    ∀ (prev : Option Char) (rest : List Char) (g2 : Bool),
      (∀ c ∈ ds, isDigitJS c = true) →
      textToBrailleAux prev (ds ++ rest) g2 true =
        ds.map (fun c => (numberMap c).getD c) ++
          textToBrailleAux (ds.foldl (fun _ c => some c) prev) rest g2 true := by
  induction ds with
  | nil =>
    intro prev rest g2 _
    simp
  | cons d ds ih =>
    intro prev rest g2 hall
    have hd : isDigitJS d = true := hall d (by simp)
    rw [List.cons_append, textToBrailleAux_cons, scanStep_digit hd]
    simp only [List.foldl_cons, List.map_cons]
    rw [ih (some d) rest g2 (fun c hc => hall c (by simp [hc]))]
    simp

theorem scanStep_flag_irrel {c : Char} (h : isDigitJS c = false) (prev : Option Char)
    (rest : List Char) (g2 n : Bool) :
    scanStep prev c rest g2 n = scanStep prev c rest g2 false := by
  simp [scanStep, h]

theorem aux_flag_irrel {c : Char} (h : isDigitJS c = false) (prev : Option Char)
    (rest : List Char) (g2 n : Bool) :
    textToBrailleAux prev (c :: rest) g2 n = textToBrailleAux prev (c :: rest) g2 false := by
  rw [textToBrailleAux_cons, textToBrailleAux_cons, scanStep_flag_irrel h]

/-! Section: The matchers look at the previous character only through letter-hood,
and never at the case of the current character -/

theorem findWordContraction_eq_ite (prev : Option Char) (rest : List Char) :
    findWordContraction prev rest =
      if isLetterOpt prev = true then none else findWordAux sortedWordContractions rest := by
  cases prev with
  | none => simp [findWordContraction, isLetterOpt]
  | some p => simp [findWordContraction, isLetterOpt]

theorem scanStep_prev_congr {prev prev' : Option Char}
    (h : isLetterOpt prev = isLetterOpt prev') (c : Char) (rest : List Char) (g2 n : Bool) :
    scanStep prev c rest g2 n = scanStep prev' c rest g2 n := by
  unfold scanStep
  rw [findWordContraction_eq_ite, findWordContraction_eq_ite, h]

theorem aux_prev_congr {prev prev' : Option Char}
    (h : isLetterOpt prev = isLetterOpt prev') (rest : List Char) (g2 n : Bool) :
    textToBrailleAux prev rest g2 n = textToBrailleAux prev' rest g2 n := by
  cases rest with
  | nil => rfl
  | cons c rest =>
    rw [textToBrailleAux_cons, textToBrailleAux_cons, scanStep_prev_congr h]

theorem isAsciiLetter_toLowerJS_eq (c : Char) :
    isAsciiLetter (toLowerJS c) = isAsciiLetter c := by
  by_cases hu : isUpperAscii c = true
  · rw [isAsciiLetter_toLowerJS (letter_of_upper hu), letter_of_upper hu]
  · rw [toLowerJS_eq_self (by simpa using hu)]

theorem findWordAux_congr {ks : List (List Char × Char)} {r r' : List Char}
    (hlen : r.length = r'.length) (hmap : r.map toLowerJS = r'.map toLowerJS)
    (hlet : ∀ j, isLetterAt r j = isLetterAt r' j) :
    findWordAux ks r = findWordAux ks r' := by
  induction ks with
  | nil => rfl
  | cons kb ks ih =>
    obtain ⟨word, v⟩ := kb
    rw [findWordAux, findWordAux]
    have hslice : (r.take word.length).map toLowerJS = (r'.take word.length).map toLowerJS := by
      rw [List.map_take, List.map_take, hmap]
    rw [hlen, hslice, hlet word.length, ih]

theorem findLetterAux_congr {ks : List (List Char × Char)} {r r' : List Char}
    (hlen : r.length = r'.length) (hmap : r.map toLowerJS = r'.map toLowerJS) :
    findLetterAux ks r = findLetterAux ks r' := by
  induction ks with
  | nil => rfl
  | cons kb ks ih =>
    obtain ⟨word, v⟩ := kb
    rw [findLetterAux, findLetterAux]
    have hslice : (r.take word.length).map toLowerJS = (r'.take word.length).map toLowerJS := by
      rw [List.map_take, List.map_take, hmap]
    rw [hlen, hslice, ih]

theorem isLetterAt_lower_head (c : Char) (rest : List Char) :
    ∀ j, isLetterAt (c :: rest) j = isLetterAt (toLowerJS c :: rest) j := by
  intro j
  cases j with
  | zero => simp [isLetterAt, List.get?, isAsciiLetter_toLowerJS_eq]
  | succ j => simp [isLetterAt, List.get?]

theorem findWordContraction_lower_head (prev : Option Char) (c : Char) (rest : List Char) :
    findWordContraction prev (c :: rest) = findWordContraction prev (toLowerJS c :: rest) := by
  rw [findWordContraction_eq_ite, findWordContraction_eq_ite]
  congr 1
  apply findWordAux_congr
  · simp
  · simp [toLowerJS_idem]
  · exact isLetterAt_lower_head c rest

theorem findLetterContraction_lower_head (c : Char) (rest : List Char) :
    findLetterContraction (c :: rest) = findLetterContraction (toLowerJS c :: rest) := by
  unfold findLetterContraction
  apply findLetterAux_congr
  · simp
  · simp [toLowerJS_idem]

theorem aux_upper {c : Char} (hu : isUpperAscii c = true) (prev : Option Char)
    (rest : List Char) (g2 n : Bool) :
    textToBrailleAux prev (c :: rest) g2 n =
      '⠠' :: textToBrailleAux prev (toLowerJS c :: rest) g2 n := by
  have hl : isAsciiLetter c = true := letter_of_upper hu
  have hl' : isAsciiLetter (toLowerJS c) = true := isAsciiLetter_toLowerJS hl
  have hu' : isUpperAscii (toLowerJS c) = false := isUpperAscii_toLowerJS c
  have hp : isLetterOpt (some c) = isLetterOpt (some (toLowerJS c)) := by
    simp [isLetterOpt, hl, hl']
  cases g2 with
  | false =>
    rw [textToBrailleAux_cons, textToBrailleAux_cons, scanStep_grade1 hl,
      scanStep_grade1 hl']
    rw [aux_prev_congr hp rest false false]
    obtain ⟨v, hv⟩ := Option.isSome_iff_exists.mp
      (alphabetMap_isSome_of_lower (letter_toLower_range hl).1 (letter_toLower_range hl).2)
    simp [hu, hu', toLowerJS_idem, hv]
  | true =>
    cases hw : findWordContraction prev (c :: rest) with
    | some m =>
      obtain ⟨br, len⟩ := m
      have hw' : findWordContraction prev (toLowerJS c :: rest) = some (br, len) := by
        rw [← findWordContraction_lower_head]
        exact hw
      have hlen2 := (findWordContraction_some hw).1
      obtain ⟨k, rfl⟩ : ∃ k, len = k + 2 := ⟨len - 2, by omega⟩
      rw [textToBrailleAux_cons, textToBrailleAux_cons, scanStep_word hl hw,
        scanStep_word hl' hw']
      simp [hu, hu', List.get?_cons_succ, List.drop_succ_cons]
    | none =>
      have hw' : findWordContraction prev (toLowerJS c :: rest) = none := by
        rw [← findWordContraction_lower_head]
        exact hw
      cases hg : findLetterContraction (c :: rest) with
      | some m =>
        obtain ⟨br, len⟩ := m
        have hg' : findLetterContraction (toLowerJS c :: rest) = some (br, len) := by
          rw [← findLetterContraction_lower_head]
          exact hg
        have hlen2 := (findLetterContraction_some hg).1
        obtain ⟨k, rfl⟩ : ∃ k, len = k + 2 := ⟨len - 2, by omega⟩
        rw [textToBrailleAux_cons, textToBrailleAux_cons, scanStep_lettergroup hl hw hg,
          scanStep_lettergroup hl' hw' hg']
        simp [hu, hu', List.get?_cons_succ, List.drop_succ_cons]
      | none =>
        have hg' : findLetterContraction (toLowerJS c :: rest) = none := by
          rw [← findLetterContraction_lower_head]
          exact hg
        rw [textToBrailleAux_cons, textToBrailleAux_cons, scanStep_single hl hw hg,
          scanStep_single hl' hw' hg']
        rw [aux_prev_congr hp rest true false]
        obtain ⟨v, hv⟩ := Option.isSome_iff_exists.mp
          (alphabetMap_isSome_of_lower (letter_toLower_range hl).1 (letter_toLower_range hl).2)
        simp [hu, hu', toLowerJS_idem, hv]

/-! Section: Output-character invariant -/

theorem numberList_vals : numberList.all (fun kb => isBrailleChar kb.2) = true := by decide

theorem alphabetList_vals : alphabetList.all (fun kb => isBrailleChar kb.2) = true := by decide

theorem punctList_vals : punctList.all (fun kb => kb.2.all isBrailleChar) = true := by decide

theorem numberMap_braille {c v : Char} (h : numberMap c = some v) : isBrailleChar v = true := by
  have hm := lookup_mem_snd _ _ _ h
  have hall := numberList_vals
  rw [List.all_eq_true] at hall
  obtain ⟨kb, hkb, rfl⟩ := List.mem_map.mp hm
  exact hall kb hkb

theorem alphabetMap_braille {c v : Char} (h : alphabetMap c = some v) :
    isBrailleChar v = true := by
  have hm := lookup_mem_snd _ _ _ h
  have hall := alphabetList_vals
  rw [List.all_eq_true] at hall
  obtain ⟨kb, hkb, rfl⟩ := List.mem_map.mp hm
  exact hall kb hkb

theorem punctuationMap_braille {c : Char} {ps : List Char} (h : punctuationMap c = some ps) :
    ps.all isBrailleChar = true := by
  have hm := lookup_mem_snd _ _ _ h
  have hall := punctList_vals
  rw [List.all_eq_true] at hall
  obtain ⟨kb, hkb, rfl⟩ := List.mem_map.mp hm
  exact hall kb hkb

theorem allowed_of_braille {c : Char} (h : isBrailleChar c = true) :
    allowedOutChar c = true := by
  simp [allowedOutChar, h]

theorem aux_allowed (L : Nat) : ∀ (rest : List Char), rest.length ≤ L →
    (∀ c ∈ rest, hasRuleEntry c = true) →
    ∀ (prev : Option Char) (g2 n : Bool),
      (textToBrailleAux prev rest g2 n).all allowedOutChar = true := by
  induction L with
  | zero =>
    intro rest hlen _ prev g2 n
    match rest with
    | [] => rfl
    | c :: rest' => simp at hlen
  | succ L ihL =>
    intro rest hlen hall prev g2 n
    match rest with
    | [] => rfl
    | c :: rest' =>
      have hlen' : rest'.length ≤ L := by
        simp only [List.length_cons] at hlen
        omega
      have hall' : ∀ x ∈ rest', hasRuleEntry x = true :=
        fun x hx => hall x (List.mem_cons_of_mem _ hx)
      have hc : hasRuleEntry c = true := hall c (by simp)
      rw [textToBrailleAux_cons, List.all_append, Bool.and_eq_true]
      by_cases hws : isWhitespaceJS c = true
      · rw [scanStep_ws hws]
        refine ⟨?_, ihL rest' hlen' hall' (some c) g2 false⟩
        show ([' ']).all allowedOutChar = true
        decide
      · by_cases hd : isDigitJS c = true
        · rw [scanStep_digit hd]
          obtain ⟨v, hv⟩ := Option.isSome_iff_exists.mp (numberMap_isSome_of_digit hd)
          refine ⟨?_, ihL rest' hlen' hall' (some c) g2 true⟩
          have h1 : allowedOutChar '⠼' = true := by decide
          have h2 := allowed_of_braille (numberMap_braille hv)
          cases n <;> simp [hv, h1, h2]
        · cases hpm : punctuationMap c with
          | some ps =>
            rw [scanStep_punct (by simpa using hws) (by simpa using hd) hpm]
            refine ⟨?_, ihL rest' hlen' hall' (some c) g2 false⟩
            have := punctuationMap_braille hpm
            rw [List.all_eq_true] at this ⊢
            exact fun x hx => allowed_of_braille (this x hx)
          | none =>
            by_cases hl : isAsciiLetter c = true
            · have hcap : ∀ x ∈ (if isUpperAscii c then ['⠠'] else []),
                  allowedOutChar x = true := by
                split <;> simp <;> decide
              obtain ⟨v, hv⟩ := Option.isSome_iff_exists.mp
                (alphabetMap_isSome_of_lower (letter_toLower_range hl).1
                  (letter_toLower_range hl).2)
              cases g2 with
              | false =>
                rw [scanStep_grade1 hl]
                refine ⟨?_, ihL rest' hlen' hall' (some c) false false⟩
                rw [List.all_append, Bool.and_eq_true]
                refine ⟨by rw [List.all_eq_true]; exact hcap, ?_⟩
                simp [hv, allowed_of_braille (alphabetMap_braille hv)]
              | true =>
                cases hw : findWordContraction prev (c :: rest') with
                | some m =>
                  obtain ⟨br, len⟩ := m
                  obtain ⟨hl2, hle, hbr, _⟩ := findWordContraction_some hw
                  rw [scanStep_word hl hw]
                  constructor
                  · rw [List.all_append, Bool.and_eq_true]
                    refine ⟨by rw [List.all_eq_true]; exact hcap, ?_⟩
                    simp [allowed_of_braille hbr]
                  · refine ihL ((c :: rest').drop len) ?_ ?_ _ true false
                    · simp only [List.length_drop, List.length_cons]
                      omega
                    · exact fun x hx => hall x (List.drop_subset _ _ hx)
                | none =>
                  cases hg : findLetterContraction (c :: rest') with
                  | some m =>
                    obtain ⟨br, len⟩ := m
                    obtain ⟨hl2, hle, hbr⟩ := findLetterContraction_some hg
                    rw [scanStep_lettergroup hl hw hg]
                    constructor
                    · rw [List.all_append, Bool.and_eq_true]
                      refine ⟨by rw [List.all_eq_true]; exact hcap, ?_⟩
                      simp [allowed_of_braille hbr]
                    · refine ihL ((c :: rest').drop len) ?_ ?_ _ true false
                      · simp only [List.length_drop, List.length_cons]
                        omega
                      · exact fun x hx => hall x (List.drop_subset _ _ hx)
                  | none =>
                    rw [scanStep_single hl hw hg]
                    refine ⟨?_, ihL rest' hlen' hall' (some c) true false⟩
                    rw [List.all_append, Bool.and_eq_true]
                    refine ⟨by rw [List.all_eq_true]; exact hcap, ?_⟩
                    simp [hv, allowed_of_braille (alphabetMap_braille hv)]
            · exfalso
              simp only [hasRuleEntry, hl, hd, hpm, hws, Option.isSome_none,
                Bool.or_self, Bool.or_false, Bool.false_or] at hc
              cases hc

theorem aux_ne_nil {c : Char} {rest : List Char} {prev : Option Char} {g2 n : Bool} :
    textToBrailleAux prev (c :: rest) g2 n ≠ [] := by
  rw [textToBrailleAux_cons]
  intro h
  exact scanStep_emits (List.append_eq_nil.mp h).1

/-! Section: Longest-match facts -/

theorem findWordAux_longest {ks : List (List Char × Char)} {rest : List Char} {br : Char}
    {len : Nat} (hsort : ks.Pairwise (fun a b => b.1.length ≤ a.1.length))
    (h : findWordAux ks rest = some (br, len)) :
    ∀ kb ∈ ks, eligibleWordKey rest kb → kb.1.length ≤ len := by
  induction ks with
  | nil => simp
  | cons kb0 ks ih =>
    obtain ⟨word, v⟩ := kb0
    rw [List.pairwise_cons] at hsort
    obtain ⟨hhead, htail⟩ := hsort
    rw [findWordAux] at h
    intro kb hmem helig
    rcases List.mem_cons.mp hmem with heq | hmem'
    · subst heq
      split at h
      · split at h
        · split at h
          · simp only [Option.some.injEq, Prod.mk.injEq] at h
            exact le_of_eq h.2
          · rename_i hbound
            exfalso
            apply hbound
            obtain ⟨he1, he2, he3⟩ := helig
            rcases he3 with he3 | he3 <;> simp [he3]
        · rename_i hslice
          exact absurd helig.2.1 hslice
      · rename_i hfit
        exact absurd helig.1 hfit
    · split at h
      · split at h
        · split at h
          · simp only [Option.some.injEq, Prod.mk.injEq] at h
            obtain ⟨hbr, hlen⟩ := h
            subst hlen
            exact hhead kb hmem'
          · exact ih htail h kb hmem' helig
        · exact ih htail h kb hmem' helig
      · exact ih htail h kb hmem' helig

theorem sortedWord_pairwise :
    sortedWordContractions.Pairwise (fun a b => b.1.length ≤ a.1.length) := by decide

/-! Section: Claim theorems -/

theorem bit_if (m : Nat) : (if bitChar (m % 2) = '1' then 1 else 0) = m % 2 := by
  rcases Nat.mod_two_eq_zero_or_one m with h | h <;> rw [h] <;> simp [bitChar]

/-- Claim C1: the claim says a literal newline emits a literal newline while
other generic whitespace emits a space.  In the code the generic-whitespace
branch precedes the newline branch and `\s` matches the newline, so the
newline branch is unreachable: every generic-whitespace character, the
newline included, emits a literal space and resets number-mode, and
`textToBraille "\n"` is `" "`, not `"\n"`. -/
theorem c1_whitespace_emits_space :
    (∀ (prev : Option Char) (c : Char) (rest : List Char) (g2 n : Bool),
        isWhitespaceJS c = true →
        textToBrailleAux prev (c :: rest) g2 n =
          ' ' :: textToBrailleAux (some c) rest g2 false)
  ∧ textToBraille ("\n".data) true = [' '] := by
  refine ⟨?_, by decide⟩
  intro prev c rest g2 n h
  rw [textToBrailleAux_cons, scanStep_ws h]
  simp

theorem c1_whitespace_emits_space_witness :
    isWhitespaceJS '\n' = true ∧
      textToBrailleAux none ['\n'] true true =
        ' ' :: textToBrailleAux (some '\n') [] true false :=
  ⟨by decide, c1_whitespace_emits_space.1 none '\n' [] true true (by decide)⟩

/-- Claim C2: a word contraction only matches with a trailing word boundary,
the longest eligible key wins, `textToBraille "the"` in Grade 2 is the single
word-contraction code point, and on `"there"` the word matcher fails at
position 0 and the engine falls through to letter-group transliteration
(`th`, `er`, `e`). -/
theorem c2_word_contraction_boundary :
    (∀ (prev : Option Char) (rest : List Char) (br : Char) (len : Nat),
        findWordContraction prev rest = some (br, len) →
          (len = rest.length ∨ isLetterAt rest len = false) ∧
            ∀ kb ∈ wordContractions, eligibleWordKey rest kb → kb.1.length ≤ len)
  ∧ textToBraille ("the".data) true = ['⠮']
  ∧ findWordContraction none ("there".data) = none
  ∧ textToBraille ("there".data) true = "⠹⠻⠑".data := by
  refine ⟨?_, by decide, by decide, by decide⟩
  intro prev rest br len h
  refine ⟨(findWordContraction_some h).2.2.2, ?_⟩
  intro kb hmem helig
  exact findWordAux_longest sortedWord_pairwise (findWordContraction_aux_of_some h) kb
    (mem_sortByLenDesc.mpr hmem) helig

theorem c2_word_contraction_boundary_witness :
    (3 = ("the".data).length ∨ isLetterAt ("the".data) 3 = false) ∧
      ∀ kb ∈ wordContractions, eligibleWordKey ("the".data) kb → kb.1.length ≤ 3 :=
  c2_word_contraction_boundary.1 none ("the".data) '⠮' 3 (by decide)

/-- Claim C3: one number indicator is emitted at the first digit of a run of
digits and is not repeated inside the run (the number-mode flag holds across
the run); the flag's value is irrelevant when scanning any non-digit
character, which resets it; and `textToBraille "123"` has exactly one
indicator followed by the three digit cells. -/
theorem c3_number_indicator_once :
    (∀ (prev : Option Char) (ds rest : List Char) (g2 : Bool), ds ≠ [] →
        (∀ c ∈ ds, isDigitJS c = true) →
        textToBrailleAux prev (ds ++ rest) g2 false =
          '⠼' :: ((ds.map fun c => (numberMap c).getD c) ++
            textToBrailleAux (ds.foldl (fun _ c => some c) prev) rest g2 true))
  ∧ (∀ (prev : Option Char) (c : Char) (rest : List Char) (g2 n : Bool),
        isDigitJS c = false →
        textToBrailleAux prev (c :: rest) g2 n = textToBrailleAux prev (c :: rest) g2 false)
  ∧ textToBraille ("123".data) true = "⠼⠁⠃⠉".data := by
  refine ⟨?_, ?_, by decide⟩
  · intro prev ds rest g2 hne hall
    match ds with
    | [] => exact absurd rfl hne
    | d :: ds =>
      have hd : isDigitJS d = true := hall d (by simp)
      rw [List.cons_append, textToBrailleAux_cons, scanStep_digit hd]
      simp [aux_digit_run ds (some d) rest g2 (fun c hc => hall c (by simp [hc]))]
  · exact fun prev c rest g2 n h => aux_flag_irrel h prev rest g2 n

theorem c3_number_indicator_once_witness :
    textToBrailleAux none ("7".data ++ []) true false =
      '⠼' :: ((("7".data).map fun c => (numberMap c).getD c) ++
        textToBrailleAux (("7".data).foldl (fun _ c => some c) none) [] true true) :=
  c3_number_indicator_once.1 none ("7".data) [] true (by decide) (by decide)

/-- Claim C4: an upper-case ASCII letter contributes exactly one capital
indicator in front of the output that the same position would produce with
the letter lowered (so the chosen letter or contraction is unchanged);
`textToBraille "Cat"` is the capital indicator followed by the Braille of
`"cat"`, and `textToBraille "The"` is the capital indicator followed by the
single word-contraction cell, with no re-emission inside the contraction. -/
theorem c4_capital_indicator :
    (∀ (prev : Option Char) (c : Char) (rest : List Char) (g2 n : Bool),
        isUpperAscii c = true →
        textToBrailleAux prev (c :: rest) g2 n =
          '⠠' :: textToBrailleAux prev (toLowerJS c :: rest) g2 n)
  ∧ textToBraille ("Cat".data) true = '⠠' :: textToBraille ("cat".data) true
  ∧ textToBraille ("The".data) true = ['⠠', '⠮'] :=
  ⟨fun prev c rest g2 n hu => aux_upper hu prev rest g2 n, by decide, by decide⟩

theorem c4_capital_indicator_witness :
    textToBrailleAux none ['A'] true false =
      '⠠' :: textToBrailleAux none [toLowerJS 'A'] true false :=
  c4_capital_indicator.1 none 'A' [] true false (by decide)

/-- Claim C5 as stated is false at the empty string: every character of the
empty string (vacuously) has a rule-table entry, yet `isValidBraille` rejects
the empty output because a falsy string fails its first guard. -/
theorem c5_counterexample :
    isValidBraille (textToBraille ([] : List Char) true) = false := by decide

/-- Claim C5, amended: for every string whose characters all have rule-table
entries (letter, digit, punctuation) or are whitespace, the Grade-2 output
consists only of Braille-range code points, literal spaces and literal
newlines, and — provided the input is non-empty — `isValidBraille` accepts
the output. -/
theorem c5_valid_output :
    ∀ s : List Char, (∀ c ∈ s, hasRuleEntry c = true) →
      (textToBraille s true).all allowedOutChar = true ∧
        (s ≠ [] → isValidBraille (textToBraille s true) = true) := by
  intro s hall
  have h1 : (textToBraille s true).all allowedOutChar = true :=
    aux_allowed s.length s (le_refl _) hall none true false
  refine ⟨h1, ?_⟩
  intro hne
  unfold isValidBraille
  rw [Bool.and_eq_true]
  constructor
  · match s, hne with
    | c :: rest, _ =>
      have h2 : textToBrailleAux none (c :: rest) true false ≠ [] := aux_ne_nil
      simpa [textToBraille, List.isEmpty_iff] using h2
  · rw [List.all_eq_true] at h1 ⊢
    intro x hx
    have hx2 := h1 x hx
    simp only [allowedOutChar, Bool.or_eq_true, decide_eq_true_eq] at hx2
    simp only [Bool.or_eq_true, decide_eq_true_eq]
    rcases hx2 with (hb | hsp) | hnl
    · exact Or.inl (Or.inl hb)
    · subst hsp
      exact Or.inl (Or.inr (by decide))
    · exact Or.inr hnl

theorem c5_valid_output_witness :
    (textToBraille ("a1.".data) true).all allowedOutChar = true ∧
      isValidBraille (textToBraille ("a1.".data) true) = true :=
  ⟨(c5_valid_output ("a1.".data) (by decide)).1,
   (c5_valid_output ("a1.".data) (by decide)).2 (by decide)⟩

/-- Claim C6: with `useGrade2 = false` no contraction is ever consulted: an
ASCII letter always produces its single-letter cell (with a capital indicator
first when upper case) and the scan advances one character;
`textToBraille "the" false` is the three letter cells, never the contraction. -/
theorem c6_grade1_bypass :
    (∀ (prev : Option Char) (c : Char) (rest : List Char) (n : Bool),
        isAsciiLetter c = true →
        textToBrailleAux prev (c :: rest) false n =
          (if isUpperAscii c then ['⠠'] else []) ++
            ((alphabetMap (toLowerJS c)).getD c) :: textToBrailleAux (some c) rest false false)
  ∧ textToBraille ("the".data) false = "⠞⠓⠑".data
  ∧ textToBraille ("The".data) false = ['⠠', '⠞', '⠓', '⠑'] := by
  refine ⟨?_, by decide, by decide⟩
  intro prev c rest n hl
  rw [textToBrailleAux_cons, scanStep_grade1 hl]
  simp

theorem c6_grade1_bypass_witness :
    textToBrailleAux none ['q'] false true =
      (if isUpperAscii 'q' then ['⠠'] else []) ++
        ((alphabetMap (toLowerJS 'q')).getD 'q') :: textToBrailleAux (some 'q') [] false false :=
  c6_grade1_bypass.1 none 'q' [] true (by decide)

/-- Claim C7: on `"# Title\n\nBody"` the formatter emits the capital
indicator, the Grade-2 transliteration of the upper-cased title, a blank
line, then the transliteration of `"Body"` followed by a newline that the
final trim removes. -/
theorem c7_title_formatting :
    convertAcademicNotesRaw ("# Title\n\nBody".data) =
      ('⠠' :: textToBraille ("TITLE".data) true) ++
        ('\n' :: '\n' :: '\n' :: (textToBraille ("Body".data) true ++ ['\n'])) ∧
    convertAcademicNotes ("# Title\n\nBody".data) =
      ('⠠' :: textToBraille ("TITLE".data) true) ++
        ('\n' :: '\n' :: '\n' :: textToBraille ("Body".data) true) :=
  ⟨by decide, by decide⟩

/-- Claim C8: `isValidBraille` accepts exactly the non-empty strings whose
characters are Braille-range code points, generic whitespace, or the newline
(the non-string branch of the source is outside a typed model). -/
theorem c8_isValidBraille_iff :
    ∀ text : List Char,
      isValidBraille text = true ↔
        text ≠ [] ∧ ∀ c ∈ text,
          (0x2800 ≤ c.toNat ∧ c.toNat ≤ 0x28FF) ∨ isWhitespaceJS c = true ∨ c = '\n' := by
  intro text
  unfold isValidBraille
  rw [Bool.and_eq_true, List.all_eq_true]
  constructor
  · rintro ⟨h1, h2⟩
    constructor
    · intro he
      subst he
      simp at h1
    · intro c hc
      have := h2 c hc
      simp only [Bool.or_eq_true, isBrailleChar, Bool.and_eq_true, decide_eq_true_eq] at this
      tauto
  · rintro ⟨h1, h2⟩
    constructor
    · simpa [List.isEmpty_iff] using h1
    · intro c hc
      have := h2 c hc
      simp only [Bool.or_eq_true, isBrailleChar, Bool.and_eq_true, decide_eq_true_eq]
      tauto

theorem c8_isValidBraille_iff_witness :
    isValidBraille ("⠮ ".data) = true :=
  (c8_isValidBraille_iff ("⠮ ".data)).mpr ⟨by decide, by decide⟩

/-- Claim C9: on a single character whose code point is in the Braille block,
the inspector returns the character, its hexadecimal label, the dot mask
(code point minus 0x2800) and the zero-padded 8-bit binary string of that
mask (whose digits really denote the mask); any other input yields `none`;
0x2800 gives mask 0 and "00000000", 0x2801 gives mask 1 and "00000001". -/
theorem c9_getBrailleCharInfo_contract :
    (∀ c : Char, 0x2800 ≤ c.toNat → c.toNat ≤ 0x28FF →
        getBrailleCharInfo [c] =
          some { character := c, unicode := 'U' :: '+' :: toHex4 c.toNat,
                 dots := c.toNat - 0x2800, binary := toBin8 (c.toNat - 0x2800) })
  ∧ (∀ c : Char, c.toNat < 0x2800 ∨ 0x28FF < c.toNat → getBrailleCharInfo [c] = none)
  ∧ (∀ s : List Char, s.length ≠ 1 → getBrailleCharInfo s = none)
  ∧ (∀ n : Nat, n < 256 → (toBin8 n).length = 8 ∧ binVal (toBin8 n) = n)
  ∧ getBrailleCharInfo [Char.ofNat 0x2800] =
      some ⟨Char.ofNat 0x2800, "U+2800".data, 0, "00000000".data⟩
  ∧ getBrailleCharInfo [Char.ofNat 0x2801] =
      some ⟨Char.ofNat 0x2801, "U+2801".data, 1, "00000001".data⟩ := by
  refine ⟨?_, ?_, ?_, ?_, by decide, by decide⟩
  · intro c h1 h2
    simp [getBrailleCharInfo, h1, h2]
  · intro c h
    have hcond : (0x2800 ≤ c.toNat && c.toNat ≤ 0x28FF) = false := by
      simp only [Bool.and_eq_false_iff, decide_eq_false_iff_not]
      omega
    simp [getBrailleCharInfo, hcond]
  · intro s hs
    match s, hs with
    | [], _ => rfl
    | [c], h => exact absurd rfl h
    | a :: b :: t, _ => rfl
  · intro n hn
    refine ⟨rfl, ?_⟩
    unfold binVal toBin8
    simp only [List.foldl_cons, List.foldl_nil, bit_if]
    omega

theorem c9_getBrailleCharInfo_contract_witness :
    getBrailleCharInfo [Char.ofNat 0x28FF] =
      some { character := Char.ofNat 0x28FF,
             unicode := 'U' :: '+' :: toHex4 (Char.ofNat 0x28FF).toNat,
             dots := (Char.ofNat 0x28FF).toNat - 0x2800,
             binary := toBin8 ((Char.ofNat 0x28FF).toNat - 0x2800) } ∧
      getBrailleCharInfo ['a'] = none ∧
      getBrailleCharInfo [] = none ∧
      ((toBin8 255).length = 8 ∧ binVal (toBin8 255) = 255) :=
  ⟨c9_getBrailleCharInfo_contract.1 (Char.ofNat 0x28FF) (by decide) (by decide),
   c9_getBrailleCharInfo_contract.2.1 'a' (by decide),
   c9_getBrailleCharInfo_contract.2.2.1 [] (by decide),
   c9_getBrailleCharInfo_contract.2.2.2.1 255 (by decide)⟩

/-- Claim C10: the scanning loop terminates because every iteration consumes
at least one character: a budget of the remaining length already computes the
loop's result, one step never leaves more than the tail's length unconsumed,
and both matchers only return consumed lengths between 2 and the remaining
length. -/
theorem c10_termination :
    (∀ (f : Nat) (prev : Option Char) (rest : List Char) (g2 n : Bool),
        rest.length ≤ f →
        fuelGo f prev rest g2 n = textToBrailleAux prev rest g2 n)
  ∧ (∀ (prev : Option Char) (c : Char) (rest : List Char) (g2 n : Bool),
        ((scanStep prev c rest g2 n).2.2.1).length ≤ rest.length)
  ∧ (∀ (prev : Option Char) (rest : List Char) (br : Char) (len : Nat),
        findWordContraction prev rest = some (br, len) → 2 ≤ len ∧ len ≤ rest.length)
  ∧ (∀ (rest : List Char) (br : Char) (len : Nat),
        findLetterContraction rest = some (br, len) → 2 ≤ len ∧ len ≤ rest.length) := by
  refine ⟨fun f prev rest g2 n h => fuelGo_stable f prev rest g2 n h,
    scanStep_consumes, ?_, ?_⟩
  · intro prev rest br len h
    have hp := findWordContraction_some h
    exact ⟨hp.1, hp.2.1⟩
  · intro rest br len h
    have hp := findLetterContraction_some h
    exact ⟨hp.1, hp.2.1⟩

theorem c10_termination_witness :
    fuelGo 9 none ("ab".data) true false = textToBrailleAux none ("ab".data) true false ∧
      (2 ≤ 3 ∧ 3 ≤ ("the".data).length) :=
  ⟨c10_termination.1 9 none ("ab".data) true false (by decide),
   c10_termination.2.2.1 none ("the".data) '⠮' 3 (by decide)⟩
